import Mathlib

/-!
Shallow embedding of the cue-matching / segment-planning engine of the
`audionFormVideo` repository (directory `videodown/`).

Seconds are modelled as rationals (the Python code uses floats but performs
only field arithmetic and order comparisons on them).  Subtitle cues are the
`Cue` structure below.  Each planner is translated function-by-function from
its Python source; the translation of each definition names the source file
and function it embeds.
-/

/-- A subtitle cue: the Python code reads `sub.start.ordinal / 1000.0`,
`sub.end.ordinal / 1000.0` and `sub.text` from a `pysrt.SubRipItem`.
The field `stop` embeds the Python attribute `end` (a Lean keyword). -/
structure Cue where
  start : ℚ
  stop : ℚ
  text : String
deriving DecidableEq, Repr

/-- Generic invariant lemma for `List.foldl`, used to reason about the
planner loops (which are all embedded as folds). -/
theorem foldl_invariant {α β : Type} (P : β → Prop) (f : β → α → β)
    (l : List α) (init : β) (h0 : P init)
    (hstep : ∀ acc x, x ∈ l → P acc → P (f acc x)) :
    P (l.foldl f init) := by
  induction l generalizing init with
  | nil => exact h0
  | cons a t ih =>
      exact ih (f init a) (hstep init a (List.mem_cons_self a t) h0)
        (fun acc x hx hacc => hstep acc x (List.mem_cons_of_mem a hx) hacc)

/-- Python `str.lower()` followed by `str.strip()`, on a list of characters:
map to lower case, then drop leading and trailing whitespace.  Used by every
`text_similarity` implementation in the repository. -/
def trimChars (l : List Char) : List Char :=
  ((l.dropWhile Char.isWhitespace).reverse.dropWhile Char.isWhitespace).reverse

/-- `text.lower().strip()` as performed throughout the planners. -/
def normText (s : String) : List Char :=
  trimChars (s.data.map Char.toLower)

/-- Length of the common run of equal characters at the heads of two lists
(the length of the matching block starting at a given pair of positions). -/
def runLen : List Char → List Char → ℕ
  | a :: as, b :: bs => if a = b then runLen as bs + 1 else 0
  | _, _ => 0

/-- Modelled from the documented contract of Python's
`difflib.SequenceMatcher.find_longest_match` (the standard-library routine
called by every `text_similarity` in the repository; difflib itself is
outside the repository): among all maximal matching blocks `a[i:i+k] ==
b[j:j+k]` return the one with the largest `k`, breaking ties towards the
smallest `i` and then the smallest `j`.  Scanning candidate positions in
ascending `(i, j)` order with a strict improvement test realises exactly
that tie-breaking.  (The `autojunk` heuristic, which only activates for
strings of 200 or more characters, is not modelled: cue texts are short.) -/
def longestMatch (a b : List Char) : ℕ × ℕ × ℕ :=
  (List.range a.length).foldl (fun best i =>
    (List.range b.length).foldl (fun best j =>
      let k := runLen (a.drop i) (b.drop j)
      if best.2.2 < k then (i, j, k) else best) best) (0, 0, 0)

/-- Modelled from the documented contract of
`difflib.SequenceMatcher.get_matching_blocks`: total matched size `M`,
computed by recursively taking the longest match and matching the two
remainders.  `fuel` bounds the recursion depth structurally; every
recursive call strictly shortens the first list, so
`a.length + 1` units of fuel (as supplied by `matchTotal`) always suffice. -/
def matchTotalF : ℕ → List Char → List Char → ℕ
  | 0, _, _ => 0
  | fuel + 1, a, b =>
      let t := longestMatch a b
      if t.2.2 = 0 then 0
      else
        t.2.2 + matchTotalF fuel (a.take t.1) (b.take t.2.1)
          + matchTotalF fuel (a.drop (t.1 + t.2.2)) (b.drop (t.2.1 + t.2.2))

/-- Total size of the matching blocks of `a` and `b`. -/
def matchTotal (a b : List Char) : ℕ :=
  matchTotalF (a.length + 1) a b

/-- Modelled from Python's `difflib._calculate_ratio`:
`2.0 * matches / (len(a) + len(b))`, and `1.0` when both strings are
empty. -/
def ratioChars (a b : List Char) : ℚ :=
  if a.length + b.length = 0 then 1
  else (2 * matchTotal a b : ℚ) / (a.length + b.length : ℚ)

/-- `text_similarity` of `smart_segment_clipper.py` (lines 68-75),
`timeline_aligner.py` (lines 87-103) and `timeline_remap_clipper.py`
(lines 67-74), which are textually identical: lower-case and strip both
inputs, return `0.0` if either is then empty, otherwise
`difflib.SequenceMatcher(None, a, b).ratio()`. -/
def charSim (a b : List Char) : ℚ :=
  let a' := trimChars (a.map Char.toLower)
  let b' := trimChars (b.map Char.toLower)
  if a' = [] ∨ b' = [] then 0 else ratioChars a' b'

/-- `text_similarity` on strings. -/
def text_similarity (s t : String) : ℚ :=
  charSim s.data t.data

/-! ## Segment merger (`reclip_video_by_subtitles.py`, lines 106-139;
the identical inline pass appears in `enhanced_video_processor.py`,
lines 150-165) -/

/-- Body of the merge loop of `VideoReclipper.merge_adjacent_segments`:
`(cs, ce)` is the currently open segment; whenever the next segment's start
minus the current end is `<= gap` the current end is overwritten with the
next segment's end, otherwise the current segment is closed and the next
one opened. -/
def merge_adjacent_aux (gap : ℚ) (cs ce : ℚ) : List (ℚ × ℚ) → List (ℚ × ℚ)
  | [] => [(cs, ce)]
  | (s, e) :: rest =>
      if s - ce ≤ gap then merge_adjacent_aux gap cs e rest
      else (cs, ce) :: merge_adjacent_aux gap s e rest

/-- `VideoReclipper.merge_adjacent_segments(segments, gap_threshold)`. -/
def merge_adjacent_segments (segments : List (ℚ × ℚ)) (gap : ℚ) :
    List (ℚ × ℚ) :=
  match segments with
  | [] => []
  | (s, e) :: rest => merge_adjacent_aux gap s e rest

/-! ## Gap-Preserving planner (`smart_segment_clipper.py`,
`SmartSegmentClipper.extract_segments_with_gaps`, lines 77-188) -/

/-- Loop state of `extract_segments_with_gaps`: emitted segments, the
`used_original_indices` set (as an insertion-ordered list) and, for each
matched log entry, the `(new cue index, matched original index)` pair. -/
structure SmartState where
  segments : List (ℚ × ℚ)
  used : List ℕ
  pairs : List (ℕ × ℕ)
deriving DecidableEq, Repr

/-- The inner candidate scan of `extract_segments_with_gaps` (lines
115-128): over indices `[lo, hi)`, skipping used ones, keep the candidate
with the strictly greatest `text_similarity` (initial best score `0.0`,
initial best match `None`). -/
def smartBest (orig : List Cue) (used : List ℕ) (newText : List Char)
    (lo hi : ℕ) : Option (ℕ × Cue) × ℚ :=
  (List.range' lo (hi - lo)).foldl (fun acc idx =>
    if idx ∈ used then acc
    else
      match orig[idx]? with
      | none => acc
      | some oc =>
          let sim := charSim newText (trimChars (oc.text.data.map Char.toLower))
          if acc.2 < sim then (some (idx, oc), sim) else acc)
    ((none : Option (ℕ × Cue)), (0 : ℚ))

/-- One iteration of the `for i, new_sub in enumerate(self.new_subs)` loop
of `extract_segments_with_gaps` (lines 101-159): window
`[max(0, last_used - 20), min(len(orig), last_used + 21))` around
`last_used = max(used)` (or `0` when no index is used yet); a best match
with score `> 0.3` is accepted, its interval clamped to
`[max(0, start), min(videoDuration, end)]` and kept only when still
non-degenerate, in which case the index is added to the used set. -/
def smartStep (orig : List Cue) (D : ℚ) (st : SmartState) (p : ℕ × Cue) :
    SmartState :=
  let newText := trimChars (p.2.text.data.map Char.toLower)
  let lastUsed := st.used.foldl max 0
  let lo := lastUsed - 20
  let hi := min orig.length (lastUsed + 21)
  match smartBest orig st.used newText lo hi with
  | (some (idx, oc), score) =>
      if 3/10 < score then
        let cs := max 0 oc.start
        let ce := min D oc.stop
        if cs < ce then
          { segments := st.segments ++ [(cs, ce)],
            used := st.used ++ [idx],
            pairs := st.pairs ++ [(p.1, idx)] }
        else st
      else st
  | (none, _) => st

/-- The planning loop of `extract_segments_with_gaps`. -/
def smartPlanState (orig new : List Cue) (D : ℚ) : SmartState :=
  new.enum.foldl (smartStep orig D) ⟨[], [], []⟩

/-- `extract_segments_with_gaps` including the statistics step (lines
168-188): after the matching loop the code computes
`match_rate = total_matched / len(self.new_subs) * 100`, which raises an
unhandled `ZeroDivisionError` when the new track is empty (there is no
earlier validation of track lengths).  The successful result carries the
segment list and the match rate. -/
def extract_segments_with_gaps (orig new : List Cue) (D : ℚ) :
    Except String (List (ℚ × ℚ) × ℚ) :=
  let st := smartPlanState orig new D
  if new.length = 0 then .error "ZeroDivisionError"
  else .ok (st.segments, (st.segments.length : ℚ) / (new.length : ℚ) * 100)

/-! ## Timeline-Align planner (`timeline_aligner.py`,
`TimelineAligner.find_matching_segment`, lines 105-172, and
`TimelineAligner.extract_aligned_segments`, lines 174-268) -/

/-- `TimelineAligner.find_matching_segment`: window of radius 10 around the
last matched original index; candidates with text similarity `< 0.3` are
skipped; the rest are scored `0.7 * textSim + 0.3 * durationSim` with
`durationSim = max(0, 1 - |newDur - origDur| / max(newDur, origDur))`; the
best candidate is returned only when its score is `> 0.4`. -/
def alignBest (orig : List Cue) (used : List ℕ) (newText : List Char)
    (nd : ℚ) (lo hi : ℕ) : Option (ℕ × ℚ × ℚ) × ℚ :=
  (List.range' lo (hi - lo)).foldl (fun acc idx =>
    if idx ∈ used then acc
    else
      match orig[idx]? with
      | none => acc
      | some oc =>
          let od := oc.stop - oc.start
          let ts := charSim newText (trimChars (oc.text.data.map Char.toLower))
          if ts < 3/10 then acc
          else
            let ds := max 0 (1 - |nd - od| / max nd od)
            let total := ts * (7/10) + ds * (3/10)
            if acc.2 < total then (some (idx, oc.start, oc.stop), total)
            else acc)
    ((none : Option (ℕ × ℚ × ℚ)), (0 : ℚ))

/-- The result filter of `find_matching_segment`: the best candidate is
returned only when its blended score is `> 0.4`. -/
def find_matching_segment (orig : List Cue) (newSub : Cue) (used : List ℕ)
    (lastIdx : ℕ) : Option (ℕ × ℚ × ℚ) :=
  let newText := trimChars (newSub.text.data.map Char.toLower)
  let nd := newSub.stop - newSub.start
  let lo := lastIdx - 10
  let hi := min orig.length (lastIdx + 11)
  match alignBest orig used newText nd lo hi with
  | (some r, score) => if 2/5 < score then some r else none
  | (none, _) => none

/-- Loop state of `extract_aligned_segments`. -/
structure AlignState where
  segments : List (ℚ × ℚ)
  used : List ℕ
  lastIdx : ℕ
  pairs : List (ℕ × ℕ)
deriving DecidableEq, Repr

/-- One iteration of the loop of `extract_aligned_segments` (lines
200-246): on a match, clamp the original interval to
`[max(0, start), min(videoDuration, end)]` and, when it stays
non-degenerate, emit it, mark the index used and move the window anchor. -/
def alignStep (orig : List Cue) (D : ℚ) (st : AlignState) (p : ℕ × Cue) :
    AlignState :=
  match find_matching_segment orig p.2 st.used st.lastIdx with
  | some (idx, os, oe) =>
      let cs := max 0 os
      let ce := min D oe
      if cs < ce then
        { segments := st.segments ++ [(cs, ce)],
          used := st.used ++ [idx],
          lastIdx := idx,
          pairs := st.pairs ++ [(p.1, idx)] }
      else st
  | none => st

/-- The planning loop of `TimelineAligner.extract_aligned_segments`. -/
def alignPlanState (orig new : List Cue) (D : ℚ) : AlignState :=
  new.enum.foldl (alignStep orig D) ⟨[], [], 0, []⟩

/-! ## Timeline-Remap planner (`timeline_remap_clipper.py`,
`TimelineRemapClipper.extract_segments_by_new_timeline`, lines 76-180, and
`TimelineRemapClipper.create_timeline_video`, lines 182-280) -/

/-- One accepted plan entry of the Timeline-Remap planner: the stored
segment tuple `(new_start, new_end, orig_start)` together with the two cue
indices recorded in the processing log. -/
structure RemapSeg where
  newIdx : ℕ
  origIdx : ℕ
  newStart : ℚ
  newEnd : ℚ
  origStart : ℚ
deriving DecidableEq, Repr

/-- One iteration of the loop of `extract_segments_by_new_timeline` (lines
94-154): the best text match is searched over the *entire* original track
with no exclusion set; acceptance needs score `> 0.3` and
`min(videoDuration, orig_start + newDuration) > orig_start`. -/
def remapBest (orig : List Cue) (newText : List Char) :
    Option (ℕ × Cue) × ℚ :=
  orig.enum.foldl (fun b q =>
      let sim := charSim newText (trimChars (q.2.text.data.map Char.toLower))
      if b.2 < sim then (some q, sim) else b)
    ((none : Option (ℕ × Cue)), (0 : ℚ))

/-- The acceptance step of `extract_segments_by_new_timeline` for one new
cue. -/
def remapStep (orig : List Cue) (D : ℚ) (acc : List RemapSeg) (p : ℕ × Cue) :
    List RemapSeg :=
  let newText := trimChars (p.2.text.data.map Char.toLower)
  match remapBest orig newText with
  | (some (idx, oc), score) =>
      if 3/10 < score then
        let dur := p.2.stop - p.2.start
        let segEnd := min D (oc.start + dur)
        if oc.start < segEnd then
          acc ++ [⟨p.1, idx, p.2.start, p.2.stop, oc.start⟩]
        else acc
      else acc
  | (none, _) => acc

/-- The planning loop of `extract_segments_by_new_timeline`. -/
def remapPlans (orig new : List Cue) (D : ℚ) : List RemapSeg :=
  new.enum.foldl (remapStep orig D) []

/-- The source interval that `create_timeline_video` actually hands to the
extraction call for a plan entry: `ffmpeg -ss orig_start -t duration` with
`duration = new_end - new_start` (lines 206-221), i.e. the interval
`[origStart, origStart + (newEnd - newStart)]`, with no clamping. -/
def remapExtractionInterval (p : RemapSeg) : ℚ × ℚ :=
  (p.origStart, p.origStart + (p.newEnd - p.newStart))

/-! ## Cumulative-Offset planner (`cumulative_adjust_clipper.py`,
`CumulativeTimeAdjustClipper.calculate_adjusted_segments`, lines 81-216) -/

/-- One entry of the `adjusted_original` list built by
`calculate_adjusted_segments`. -/
structure AdjEntry where
  idx : ℕ
  start : ℚ
  stop : ℚ
  adjustment : ℚ
  cumOffset : ℚ
deriving DecidableEq, Repr

/-- One iteration of the `for i in range(min_count)` loop (lines 111-186):
`time_diff = orig_start - new_start`; strictly below the threshold the
original interval is kept and the offset unchanged; otherwise both branches
of the source compute `start - time_diff` / `end - time_diff` (the
`time_diff > 0` and `time_diff < 0` branches differ only in logging) and
the offset is increased by `time_diff`. -/
def cumulativeStep (threshold : ℚ) (st : List AdjEntry × ℚ)
    (p : ℕ × Cue × Cue) : List AdjEntry × ℚ :=
  let o := p.2.1
  let n := p.2.2
  let td := o.start - n.start
  if |td| < threshold then
    (st.1 ++ [⟨p.1, o.start, o.stop, 0, st.2⟩], st.2)
  else
    (st.1 ++ [⟨p.1, o.start - td, o.stop - td, td, st.2⟩], st.2 + td)

/-- The adjustment loop of `calculate_adjusted_segments`: the Python code
iterates `i` over `range(min(len(original), len(new)))` and reads
`original_subs[i]` and `new_subs[i]`. -/
def cumulativeState (orig new : List Cue) (threshold : ℚ) :
    List AdjEntry × ℚ :=
  (List.range (min orig.length new.length)).foldl (fun st i =>
    match orig[i]?, new[i]? with
    | some o, some n => cumulativeStep threshold st (i, o, n)
    | _, _ => st)
    ([], 0)

/-- The segment-building step of `calculate_adjusted_segments` (lines
189-196): clamp to `[max(0, start), min(videoDuration, end)]` and keep the
segment only when still non-degenerate. -/
def clampSegment (D : ℚ) (se : ℚ × ℚ) : Option (ℚ × ℚ) :=
  let s := max 0 se.1
  let e := min D se.2
  if s < e then some (s, e) else none

/-- `calculate_adjusted_segments` (lines 81-216): the adjusted entries are
clamped and filtered by `clampSegment`; the function returns the segment
list and the final cumulative offset (reported as `total_adjustment_time`
in the stats). -/
def calculate_adjusted_segments (orig new : List Cue) (D threshold : ℚ) :
    List (ℚ × ℚ) × ℚ :=
  let st := cumulativeState orig new threshold
  (st.1.filterMap (fun en => clampSegment D (en.start, en.stop)), st.2)

/-- The adjusted source interval that `calculate_adjusted_segments`
computes for the positional pair `(original cue, new cue)`: unchanged when
`|orig.start - new.start|` is strictly below the threshold, otherwise both
endpoints shifted by `-(orig.start - new.start)`. -/
def adjustedTimes (threshold : ℚ) (o n : Cue) : ℚ × ℚ :=
  let td := o.start - n.start
  if |td| < threshold then (o.start, o.stop) else (o.start - td, o.stop - td)

/-- The segment (if any) that the Cumulative-Offset planner emits for one
positional pair of cues. -/
def cumulativePairSegment (D threshold : ℚ) (p : Cue × Cue) :
    Option (ℚ × ℚ) :=
  clampSegment D (adjustedTimes threshold p.1 p.2)

/-- Replace a cue's text, leaving its timestamps unchanged (used to state
that the Cumulative-Offset planner never reads cue text). -/
def retext (f : String → String) (c : Cue) : Cue :=
  ⟨c.start, c.stop, f c.text⟩

/-! ## Compact planner's matcher (`compact_video_processor.py`,
`CompactVideoClipper.find_matching_original_subtitle`, lines 85-152) -/

/-- Python `str.split()` on a character list: split on whitespace runs,
producing no empty words. -/
def wordSplitAux : List Char → List Char → List (List Char)
  | [], cur => if cur = [] then [] else [cur.reverse]
  | c :: rest, cur =>
      if c.isWhitespace then
        if cur = [] then wordSplitAux rest []
        else cur.reverse :: wordSplitAux rest []
      else wordSplitAux rest (c :: cur)

/-- Python `str.split()`. -/
def wordSplit (l : List Char) : List (List Char) := wordSplitAux l []

/-- The inline word-overlap similarity of
`find_matching_original_subtitle` (lines 129-136): when both texts are
non-empty and their word sets intersect, the score is
`len(newWords ∩ origWords) / max(len(newWords), 1)` on word *sets*
(Python `set` sizes are modelled by deduplicated lists). -/
def compactTextSim (newT origT : List Char) : ℚ :=
  if newT ≠ [] ∧ origT ≠ [] then
    let nw := (wordSplit newT).dedup
    let ow := (wordSplit origT).dedup
    let inter := nw.filter (· ∈ ow)
    if inter ≠ [] then (inter.length : ℚ) / (max nw.length 1 : ℚ) else 0
  else 0

/-- `CompactVideoClipper.find_matching_original_subtitle` (lines 85-152):
candidates more than 10 seconds from the offset-corrected target start are
skipped; the rest are scored `0.7 * timeScore + 0.3 * wordOverlap` with
`timeScore = max(0, 1 - timeDiff / 10)`; the best candidate is returned
when its score is `> 0.3`. -/
def find_matching_original_subtitle (orig : List Cue) (newSub : Cue)
    (used : List ℕ) (cumOffset : ℚ) : Option (ℕ × Cue) :=
  let newText := trimChars (newSub.text.data.map Char.toLower)
  let targetStart := newSub.start + cumOffset
  let best := orig.enum.foldl (fun acc q =>
      if q.1 ∈ used then acc
      else
        let origText := trimChars (q.2.text.data.map Char.toLower)
        let td := |q.2.start - targetStart|
        if 10 < td then acc
        else
          let ts := compactTextSim newText origText
          let timeScore := max 0 (1 - td / 10)
          let total := timeScore * (7/10) + ts * (3/10)
          if acc.2 < total then (some (q.1, q.2), total) else acc)
    ((none : Option (ℕ × Cue)), (0 : ℚ))
  match best with
  | (some r, score) => if 3/10 < score then some r else none
  | (none, _) => none

/-! ## Properties of the segment merger -/

/-- The first segment emitted by the merge loop always starts at the start
of the currently open segment. -/
theorem merge_aux_head (gap cs : ℚ) :
    ∀ (l : List (ℚ × ℚ)) (ce : ℚ),
      ∃ ce' t, merge_adjacent_aux gap cs ce l = (cs, ce') :: t := by
  intro l
  induction l with
  | nil => exact fun ce => ⟨ce, [], rfl⟩
  | cons p rest ih =>
      intro ce
      obtain ⟨s, e⟩ := p
      by_cases h : s - ce ≤ gap
      · simpa [merge_adjacent_aux, h] using ih e
      · exact ⟨ce, merge_adjacent_aux gap s e rest,
          by simp [merge_adjacent_aux, h]⟩

/-- Consecutive segments emitted by the merge loop are separated by more
than the gap threshold. -/
theorem merge_aux_chain (gap : ℚ) :
    ∀ (l : List (ℚ × ℚ)) (cs ce : ℚ),
      List.Chain' (fun p q : ℚ × ℚ => gap < q.1 - p.2)
        (merge_adjacent_aux gap cs ce l) := by
  intro l
  induction l with
  | nil => intro cs ce; exact List.chain'_singleton _
  | cons p rest ih =>
      intro cs ce
      obtain ⟨s, e⟩ := p
      by_cases h : s - ce ≤ gap
      · simpa [merge_adjacent_aux, h] using ih cs e
      · obtain ⟨ce', t, heq⟩ := merge_aux_head gap s rest e
        simp only [merge_adjacent_aux, h, if_false, heq]
        exact List.chain'_cons.2 ⟨by simpa using not_le.mp h, heq ▸ ih s e⟩

/-- On a list whose consecutive members are already separated by more than
the gap threshold, the merge loop is the identity. -/
theorem merge_aux_of_chain (gap : ℚ) :
    ∀ (l : List (ℚ × ℚ)) (cs ce : ℚ),
      List.Chain' (fun p q : ℚ × ℚ => gap < q.1 - p.2) ((cs, ce) :: l) →
      merge_adjacent_aux gap cs ce l = (cs, ce) :: l := by
  intro l
  induction l with
  | nil => intro cs ce _; rfl
  | cons p rest ih =>
      intro cs ce hch
      obtain ⟨s, e⟩ := p
      rw [List.chain'_cons] at hch
      have hsep : ¬ s - ce ≤ gap := not_le.mpr (by simpa using hch.1)
      simp only [merge_adjacent_aux, hsep, if_false]
      rw [ih s e hch.2]

/-- Claim C6: the merge pass is idempotent: for every list of segments and
every gap threshold, `merge(merge(S, g), g) == merge(S, g)`. -/
theorem merge_idempotent :
    ∀ (S : List (ℚ × ℚ)) (gap : ℚ),
      merge_adjacent_segments (merge_adjacent_segments S gap) gap
        = merge_adjacent_segments S gap := by
  intro S gap
  cases S with
  | nil => rfl
  | cons p rest =>
      obtain ⟨s, e⟩ := p
      simp only [merge_adjacent_segments]
      obtain ⟨ce', t, heq⟩ := merge_aux_head gap s rest e
      rw [heq]
      simp only [merge_adjacent_segments]
      exact merge_aux_of_chain gap t s ce' (heq ▸ merge_aux_chain gap rest s e)

/-- Coverage of the merge loop: when the pending segments extend the open
one monotonically in both endpoints, every processed segment is contained
in some emitted segment. -/
theorem merge_aux_covers (gap : ℚ) :
    ∀ (l : List (ℚ × ℚ)) (cs ce : ℚ),
      List.Chain' (fun p q : ℚ × ℚ => p.1 ≤ q.1 ∧ p.2 ≤ q.2) ((cs, ce) :: l) →
      ∀ p ∈ (cs, ce) :: l,
        ∃ q ∈ merge_adjacent_aux gap cs ce l, q.1 ≤ p.1 ∧ p.2 ≤ q.2 := by
  intro l
  induction l with
  | nil =>
      intro cs ce _ p hp
      rw [List.mem_singleton] at hp
      exact ⟨(cs, ce), List.mem_singleton_self _, by simp [hp]⟩
  | cons r rest ih =>
      intro cs ce hch p hp
      obtain ⟨s, e⟩ := r
      rw [List.chain'_cons] at hch
      rw [List.mem_cons, List.mem_cons] at hp
      by_cases h : s - ce ≤ gap
      · have hch' : List.Chain' (fun p q : ℚ × ℚ => p.1 ≤ q.1 ∧ p.2 ≤ q.2)
            ((cs, e) :: rest) := by
          cases rest with
          | nil => exact List.chain'_singleton _
          | cons r' rest' =>
              rw [List.chain'_cons] at hch ⊢
              exact ⟨⟨le_trans hch.1.1 hch.2.1.1, hch.2.1.2⟩, hch.2.2⟩
        simp only [merge_adjacent_aux, h, if_true]
        obtain ⟨q, hq, hq1, hq2⟩ := ih cs e hch' (cs, e) (List.mem_cons_self _ _)
        rcases hp with hp | hp | hp
        · exact ⟨q, hq, by rw [hp]; exact hq1,
            by rw [hp]; exact le_trans hch.1.2 hq2⟩
        · exact ⟨q, hq, by rw [hp]; exact le_trans hq1 hch.1.1,
            by rw [hp]; exact hq2⟩
        · exact ih cs e hch' p (List.mem_cons_of_mem _ hp)
      · simp only [merge_adjacent_aux, h, if_false]
        rcases hp with hp | hp
        · exact ⟨(cs, ce), List.mem_cons_self _ _, by simp [hp]⟩
        · obtain ⟨q, hq, hq1, hq2⟩ :=
            ih s e hch.2 p (List.mem_cons.mpr hp)
          exact ⟨q, List.mem_cons_of_mem _ hq, hq1, hq2⟩

/-- Claim C7 (counterexample): on the input `[(0,10),(1,2)]`, which is
sorted by ascending start, the merge overwrites the open end `10` with the
nested segment's end `2` (the code sets `current_end = end`, not
`current_end = max(current_end, end)`), so the union of the output no
longer contains the input segment `(0,10)`. -/
theorem merge_drops_nested_segment :
    List.Chain' (fun p q : ℚ × ℚ => p.1 ≤ q.1) [((0:ℚ), (10:ℚ)), (1, 2)] ∧
    merge_adjacent_segments [((0:ℚ), (10:ℚ)), (1, 2)] 0 = [(0, 2)] ∧
    ¬ ∃ q ∈ merge_adjacent_segments [((0:ℚ), (10:ℚ)), (1, 2)] 0,
        q.1 ≤ (0:ℚ) ∧ (10:ℚ) ≤ q.2 := by
  have heval : merge_adjacent_segments [((0:ℚ), (10:ℚ)), (1, 2)] 0 = [(0, 2)] := by
    norm_num [merge_adjacent_segments, merge_adjacent_aux]
  refine ⟨?_, heval, ?_⟩
  · norm_num [List.chain'_cons]
  · rw [heval]
    rintro ⟨q, hq, h0, h10⟩
    rw [List.mem_singleton] at hq
    rw [hq] at h10
    norm_num at h10

/-- Claim C7 (amended): if the input list is sorted by ascending start
*and* its ends are non-decreasing (so no segment is nested inside the
running union), then every input segment is contained in some segment
returned by the merge: no coverage is lost. -/
theorem merge_never_drops_monotone (S : List (ℚ × ℚ)) (gap : ℚ)
    (h : List.Chain' (fun p q : ℚ × ℚ => p.1 ≤ q.1 ∧ p.2 ≤ q.2) S) :
    ∀ p ∈ S, ∃ q ∈ merge_adjacent_segments S gap, q.1 ≤ p.1 ∧ p.2 ≤ q.2 := by
  cases S with
  | nil => intro p hp; cases hp
  | cons r rest =>
      obtain ⟨s, e⟩ := r
      exact merge_aux_covers gap rest s e h

/-- Witness for `merge_never_drops_monotone` at the spec's own merge
example `[(0,5),(5.3,8),(20,22)]` with gap threshold `1`. -/
theorem merge_never_drops_monotone_witness :
    ∃ q ∈ merge_adjacent_segments [((0:ℚ), (5:ℚ)), (53/10, 8), (20, 22)] 1,
      q.1 ≤ (53/10 : ℚ) ∧ (8:ℚ) ≤ q.2 :=
  merge_never_drops_monotone [((0:ℚ), (5:ℚ)), (53/10, 8), (20, 22)] 1
    (by norm_num [List.chain'_cons]) (53/10, 8) (by norm_num)

/-! ## Properties of the text-similarity function -/

set_option maxRecDepth 8000

/-- A matching run is no longer than either list. -/
theorem runLen_le (a : List Char) :
    ∀ b : List Char, runLen a b ≤ a.length ∧ runLen a b ≤ b.length := by
  induction a with
  | nil => intro b; cases b <;> simp [runLen]
  | cons x xs ih =>
      intro b
      cases b with
      | nil => simp [runLen]
      | cons y ys =>
          by_cases h : x = y
          · simpa [runLen, h, Nat.succ_le_succ_iff] using ih ys
          · simp [runLen, h]

/-- A non-trivial longest match fits inside both lists. -/
theorem longestMatch_bounds (a b : List Char) :
    (longestMatch a b).2.2 ≠ 0 →
      (longestMatch a b).1 + (longestMatch a b).2.2 ≤ a.length ∧
      (longestMatch a b).2.1 + (longestMatch a b).2.2 ≤ b.length := by
  unfold longestMatch
  apply foldl_invariant (fun t : ℕ × ℕ × ℕ =>
    t.2.2 ≠ 0 → t.1 + t.2.2 ≤ a.length ∧ t.2.1 + t.2.2 ≤ b.length)
  · intro h; exact absurd rfl h
  · intro acc i hi hacc
    apply foldl_invariant (fun t : ℕ × ℕ × ℕ =>
      t.2.2 ≠ 0 → t.1 + t.2.2 ≤ a.length ∧ t.2.1 + t.2.2 ≤ b.length)
    · exact hacc
    · intro acc' j hj hacc'
      simp only
      by_cases hlt : acc'.2.2 < runLen (a.drop i) (b.drop j)
      · rw [if_pos hlt]
        intro _
        have hi' : i < a.length := List.mem_range.mp hi
        have hj' : j < b.length := List.mem_range.mp hj
        have h1 := (runLen_le (a.drop i) (b.drop j)).1
        have h2 := (runLen_le (a.drop i) (b.drop j)).2
        rw [List.length_drop] at h1 h2
        dsimp only
        exact ⟨by omega, by omega⟩
      · rw [if_neg hlt]; exact hacc'

/-- The total matched size is no larger than either length, for any
amount of fuel. -/
theorem matchTotalF_le :
    ∀ (fuel : ℕ) (a b : List Char),
      matchTotalF fuel a b ≤ a.length ∧ matchTotalF fuel a b ≤ b.length := by
  intro fuel
  induction fuel with
  | zero => intro a b; simp [matchTotalF]
  | succ fuel ih =>
      intro a b
      simp only [matchTotalF]
      by_cases h : (longestMatch a b).2.2 = 0
      · simp [h]
      · rw [if_neg h]
        obtain ⟨hb1, hb2⟩ := longestMatch_bounds a b h
        obtain ⟨l1, l2⟩ := ih (a.take (longestMatch a b).1)
          (b.take (longestMatch a b).2.1)
        obtain ⟨r1, r2⟩ :=
          ih (a.drop ((longestMatch a b).1 + (longestMatch a b).2.2))
            (b.drop ((longestMatch a b).2.1 + (longestMatch a b).2.2))
        rw [List.length_take] at l1 l2
        rw [List.length_drop] at r1 r2
        constructor <;> omega

/-- The Ratcliff–Obershelp ratio lies in `[0, 1]`. -/
theorem ratioChars_bounds (a b : List Char) :
    0 ≤ ratioChars a b ∧ ratioChars a b ≤ 1 := by
  unfold ratioChars
  by_cases h : a.length + b.length = 0
  · simp [h]
  · rw [if_neg h]
    have hpos : (0:ℚ) < (a.length : ℚ) + (b.length : ℚ) := by
      have : 0 < a.length + b.length := Nat.pos_of_ne_zero h
      exact_mod_cast this
    constructor
    · positivity
    · rw [div_le_one hpos]
      have h1 := (matchTotalF_le (a.length + 1) a b).1
      have h2 := (matchTotalF_le (a.length + 1) a b).2
      have : 2 * matchTotal a b ≤ a.length + b.length := by
        unfold matchTotal; omega
      exact_mod_cast this

/-- `charSim` lies in `[0, 1]`. -/
theorem charSim_bounds (a b : List Char) :
    0 ≤ charSim a b ∧ charSim a b ≤ 1 := by
  unfold charSim
  by_cases h : trimChars (a.map Char.toLower) = [] ∨
      trimChars (b.map Char.toLower) = []
  · simp [h]
  · simp only [h, if_false]
    exact ratioChars_bounds _ _

/-! ## Concrete evaluation helpers -/

theorem toLower_a : 'a'.toLower = 'a' := by decide

theorem toLower_b : 'b'.toLower = 'b' := by decide

theorem trim_a : trimChars ['a'] = ['a'] := by decide

theorem trim_b : trimChars ['b'] = ['b'] := by decide

theorem trim_aba : trimChars ['a', 'b', 'a'] = ['a', 'b', 'a'] := by decide

theorem trim_babba :
    trimChars ['b', 'a', 'b', 'b', 'a'] = ['b', 'a', 'b', 'b', 'a'] := by decide

theorem charSim_aa : charSim ['a'] ['a'] = 1 := by
  have h : matchTotal ['a'] ['a'] = 1 := by decide
  simp only [charSim, List.map, toLower_a, trim_a]
  rw [if_neg (by simp)]
  norm_num [ratioChars, h]

theorem charSim_bb : charSim ['b'] ['b'] = 1 := by
  have h : matchTotal ['b'] ['b'] = 1 := by decide
  simp only [charSim, List.map, toLower_b, trim_b]
  rw [if_neg (by simp)]
  norm_num [ratioChars, h]

theorem charSim_ab : charSim ['a'] ['b'] = 0 := by
  have h : matchTotal ['a'] ['b'] = 0 := by decide
  simp only [charSim, List.map, toLower_a, toLower_b, trim_a, trim_b]
  rw [if_neg (by simp)]
  norm_num [ratioChars, h]

theorem charSim_aba_babba :
    charSim ['a', 'b', 'a'] ['b', 'a', 'b', 'b', 'a'] = 3/4 := by
  have h : matchTotal ['a', 'b', 'a'] ['b', 'a', 'b', 'b', 'a'] = 3 := by decide
  simp only [charSim, List.map, toLower_a, toLower_b, trim_aba, trim_babba]
  rw [if_neg (by simp)]
  norm_num [ratioChars, h]

theorem charSim_babba_aba :
    charSim ['b', 'a', 'b', 'b', 'a'] ['a', 'b', 'a'] = 1/2 := by
  have h : matchTotal ['b', 'a', 'b', 'b', 'a'] ['a', 'b', 'a'] = 2 := by decide
  simp only [charSim, List.map, toLower_a, toLower_b, trim_aba, trim_babba]
  rw [if_neg (by simp)]
  norm_num [ratioChars, h]

/-- Claim C9 (counterexample): `text_similarity` is not symmetric. The
greedy longest-match recursion of the underlying ratio depends on the
argument order: for `a = "aba"`, `b = "babba"` the blocks found give
`M = 3` (ratio `6/8 = 3/4`) while in the swapped order they give `M = 2`
(ratio `4/8 = 1/2`) — a gap far beyond floating rounding.  (These are the
exact values Python's `difflib` returns for this pair.) -/
theorem text_similarity_asymmetric :
    text_similarity "aba" "babba" = 3/4 ∧
    text_similarity "babba" "aba" = 1/2 ∧ (3/4 : ℚ) ≠ 1/2 :=
  ⟨charSim_aba_babba, charSim_babba_aba, by norm_num⟩

/-- Claim C9 (amended): `text_similarity` always returns a value in
`[0, 1]` and returns `0` whenever either input is empty after lower-casing
and stripping; it is however *not* symmetric in general (see the
counterexample). -/
theorem text_similarity_contract :
    ∀ s t : String,
      (0 ≤ text_similarity s t ∧ text_similarity s t ≤ 1) ∧
      ((normText s = [] ∨ normText t = []) → text_similarity s t = 0) := by
  intro s t
  refine ⟨charSim_bounds _ _, fun h => ?_⟩
  show charSim s.data t.data = 0
  simp only [charSim]
  rw [if_pos (by simpa [normText] using h)]

/-- Witness for `text_similarity_contract`: a whitespace-only first input
scores `0` against `"a"`. -/
theorem text_similarity_contract_witness : text_similarity " " "a" = 0 :=
  (text_similarity_contract " " "a").2 (Or.inl (by decide))

/-! ## Matcher specifications -/

/-- Whatever candidate the Gap-Preserving scan settles on is in range and
not in the exclusion set. -/
theorem smartBest_spec (orig : List Cue) (used : List ℕ)
    (newText : List Char) (lo hi : ℕ) :
    ∀ idx oc, (smartBest orig used newText lo hi).1 = some (idx, oc) →
      idx ∉ used ∧ orig[idx]? = some oc := by
  unfold smartBest
  apply foldl_invariant (fun acc : Option (ℕ × Cue) × ℚ =>
    ∀ idx oc, acc.1 = some (idx, oc) → idx ∉ used ∧ orig[idx]? = some oc)
  · intro idx oc h; cases h
  · intro acc i hi hacc idx oc h
    by_cases hmem : i ∈ used
    · rw [if_pos hmem] at h; exact hacc idx oc h
    · rw [if_neg hmem] at h
      cases hoc : orig[i]? with
      | none => rw [hoc] at h; exact hacc idx oc h
      | some oc' =>
          rw [hoc] at h
          dsimp only at h
          by_cases hlt : acc.2 <
              charSim newText (trimChars (oc'.text.data.map Char.toLower))
          · rw [if_pos hlt] at h
            simp only [Option.some.injEq, Prod.mk.injEq] at h
            obtain ⟨h1, h2⟩ := h
            subst h1
            subst h2
            exact ⟨hmem, hoc⟩
          · rw [if_neg hlt] at h; exact hacc idx oc h

/-- Whatever candidate the Timeline-Align scan settles on is a real,
non-excluded original cue whose interval it reports, and its text
similarity with the target is at least `0.3` (candidates below that are
skipped before any duration blending). -/
theorem alignBest_spec (orig : List Cue) (used : List ℕ)
    (newText : List Char) (nd : ℚ) (lo hi : ℕ) :
    ∀ idx s e, (alignBest orig used newText nd lo hi).1 = some (idx, s, e) →
      idx ∉ used ∧ ∃ oc, orig[idx]? = some oc ∧ s = oc.start ∧ e = oc.stop ∧
        3/10 ≤ charSim newText (trimChars (oc.text.data.map Char.toLower)) := by
  unfold alignBest
  apply foldl_invariant (fun acc : Option (ℕ × ℚ × ℚ) × ℚ =>
    ∀ idx s e, acc.1 = some (idx, s, e) →
      idx ∉ used ∧ ∃ oc, orig[idx]? = some oc ∧ s = oc.start ∧ e = oc.stop ∧
        3/10 ≤ charSim newText (trimChars (oc.text.data.map Char.toLower)))
  · intro idx s e h; cases h
  · intro acc i hi' hacc idx s e h
    by_cases hmem : i ∈ used
    · rw [if_pos hmem] at h; exact hacc idx s e h
    · rw [if_neg hmem] at h
      cases hoc : orig[i]? with
      | none => rw [hoc] at h; exact hacc idx s e h
      | some oc' =>
          rw [hoc] at h
          dsimp only at h
          by_cases hts : charSim newText
              (trimChars (oc'.text.data.map Char.toLower)) < 3/10
          · rw [if_pos hts] at h; exact hacc idx s e h
          · rw [if_neg hts] at h
            by_cases hlt : acc.2 <
                charSim newText (trimChars (oc'.text.data.map Char.toLower))
                  * (7/10)
                + max 0 (1 - |nd - (oc'.stop - oc'.start)|
                    / max nd (oc'.stop - oc'.start)) * (3/10)
            · rw [if_pos hlt] at h
              simp only [Option.some.injEq, Prod.mk.injEq] at h
              obtain ⟨h1, h2, h3⟩ := h
              subst h1
              subst h2
              subst h3
              exact ⟨hmem, oc', hoc, rfl, rfl, not_lt.mp hts⟩
            · rw [if_neg hlt] at h; exact hacc idx s e h

/-- Specification of `find_matching_segment`: an accepted match is a real,
non-excluded original cue, carries that cue's own interval, and has text
similarity at least `0.3` with the target cue. -/
theorem find_matching_segment_spec (orig : List Cue) (newSub : Cue)
    (used : List ℕ) (lastIdx : ℕ) :
    ∀ idx s e, find_matching_segment orig newSub used lastIdx
        = some (idx, s, e) →
      idx ∉ used ∧ ∃ oc, orig[idx]? = some oc ∧ s = oc.start ∧ e = oc.stop ∧
        3/10 ≤ charSim (trimChars (newSub.text.data.map Char.toLower))
          (trimChars (oc.text.data.map Char.toLower)) := by
  intro idx s e h
  simp only [find_matching_segment] at h
  rcases hb : alignBest orig used (trimChars (newSub.text.data.map Char.toLower))
      (newSub.stop - newSub.start) (lastIdx - 10)
      (min orig.length (lastIdx + 11)) with ⟨b1, score⟩
  rw [hb] at h
  cases b1 with
  | none => cases h
  | some r =>
      dsimp only at h
      by_cases hsc : 2/5 < score
      · rw [if_pos hsc] at h
        rw [Option.some.injEq] at h
        subst h
        exact alignBest_spec orig used _ _ _ _ idx s e (by rw [hb])
      · rw [if_neg hsc] at h; cases h

/-- Whatever candidate the Timeline-Remap global scan settles on is a real
original cue at the reported index. -/
theorem remapBest_spec (orig : List Cue) (newText : List Char) :
    ∀ idx oc, (remapBest orig newText).1 = some (idx, oc) →
      orig[idx]? = some oc := by
  unfold remapBest
  apply foldl_invariant (fun acc : Option (ℕ × Cue) × ℚ =>
    ∀ idx oc, acc.1 = some (idx, oc) → orig[idx]? = some oc)
  · intro idx oc h; cases h
  · intro acc q hq hacc idx oc h
    dsimp only at h
    by_cases hlt : acc.2 <
        charSim newText (trimChars (q.2.text.data.map Char.toLower))
    · rw [if_pos hlt] at h
      rw [Option.some.injEq] at h
      subst h
      exact List.mem_enum_iff_getElem?.mp hq
    · rw [if_neg hlt] at h; exact hacc idx oc h

/-! ## Injectivity of the windowed planners -/

/-- Invariant of the Gap-Preserving planning loop: the matched original
indices recorded so far are pairwise distinct and all recorded in the used
set. -/
theorem smartPairs_nodup (orig new : List Cue) (D : ℚ) :
    ((smartPlanState orig new D).pairs.map Prod.snd).Nodup ∧
    ∀ i ∈ (smartPlanState orig new D).pairs.map Prod.snd,
      i ∈ (smartPlanState orig new D).used := by
  unfold smartPlanState
  apply foldl_invariant (fun st : SmartState =>
    (st.pairs.map Prod.snd).Nodup ∧
    ∀ i ∈ st.pairs.map Prod.snd, i ∈ st.used)
  · simp
  · intro st p hp ⟨hnd, hsub⟩
    unfold smartStep
    dsimp only
    rcases hsb : smartBest orig st.used
        (trimChars (p.2.text.data.map Char.toLower))
        (st.used.foldl max 0 - 20)
        (min orig.length (st.used.foldl max 0 + 21)) with ⟨b1, score⟩
    cases b1 with
    | none => exact ⟨hnd, hsub⟩
    | some r =>
        obtain ⟨idx, oc⟩ := r
        have hspec := (smartBest_spec orig st.used _ _ _ idx oc
          (by rw [hsb])).1
        dsimp only
        split_ifs with h1 h2
        · constructor
          · rw [List.map_append, List.nodup_append]
            refine ⟨hnd, List.nodup_singleton _, ?_⟩
            intro a ha hb
            rw [List.map_singleton, List.mem_singleton] at hb
            subst hb
            exact hspec (hsub a ha)
          · intro i hi
            rw [List.map_append, List.mem_append] at hi
            rcases hi with hi | hi
            · exact List.mem_append_left _ (hsub i hi)
            · rw [List.map_singleton] at hi
              exact List.mem_append_right _ hi
        · exact ⟨hnd, hsub⟩
        · exact ⟨hnd, hsub⟩

/-- Invariant of the Timeline-Align planning loop: the matched original
indices recorded so far are pairwise distinct and all recorded in the used
set. -/
theorem alignPairs_nodup (orig new : List Cue) (D : ℚ) :
    ((alignPlanState orig new D).pairs.map Prod.snd).Nodup ∧
    ∀ i ∈ (alignPlanState orig new D).pairs.map Prod.snd,
      i ∈ (alignPlanState orig new D).used := by
  unfold alignPlanState
  apply foldl_invariant (fun st : AlignState =>
    (st.pairs.map Prod.snd).Nodup ∧
    ∀ i ∈ st.pairs.map Prod.snd, i ∈ st.used)
  · simp
  · intro st p hp ⟨hnd, hsub⟩
    unfold alignStep
    rcases hfm : find_matching_segment orig p.2 st.used st.lastIdx
        with _ | ⟨idx, os, oe⟩
    · exact ⟨hnd, hsub⟩
    · have hspec := (find_matching_segment_spec orig p.2 st.used st.lastIdx
        idx os oe hfm).1
      dsimp only
      split_ifs with h1
      · constructor
        · rw [List.map_append, List.nodup_append]
          refine ⟨hnd, List.nodup_singleton _, ?_⟩
          intro a ha hb
          rw [List.map_singleton, List.mem_singleton] at hb
          subst hb
          exact hspec (hsub a ha)
        · intro i hi
          rw [List.map_append, List.mem_append] at hi
          rcases hi with hi | hi
          · exact List.mem_append_left _ (hsub i hi)
          · rw [List.map_singleton] at hi
            exact List.mem_append_right _ hi
      · exact ⟨hnd, hsub⟩

/-- Claim C1 (amended): matching is injective for the windowed planners
that maintain an exclusion set — the Gap-Preserving planner
(`extract_segments_with_gaps`) and the Timeline-Align planner
(`extract_aligned_segments`): within one run no original index is recorded
as the match target of two different new cues.  (The Timeline-Remap
planner's global search keeps no exclusion set and violates this — see the
counterexample.) -/
theorem matching_injective_windowed_planners :
    ∀ orig new D,
      ((smartPlanState orig new D).pairs.map Prod.snd).Nodup ∧
      ((alignPlanState orig new D).pairs.map Prod.snd).Nodup :=
  fun orig new D =>
    ⟨(smartPairs_nodup orig new D).1, (alignPairs_nodup orig new D).1⟩

/-- Concrete Timeline-Remap run: two identical new cues both match the
single original cue, because the global scan has no exclusion set. -/
theorem remap_eval_inj :
    remapPlans [⟨0, 1, "a"⟩] [⟨0, 1, "a"⟩, ⟨2, 3, "a"⟩] 100
      = [⟨0, 0, 0, 1, 0⟩, ⟨1, 0, 2, 3, 0⟩] := by
  have henum : ([(⟨0, 1, "a"⟩ : Cue), ⟨2, 3, "a"⟩] : List Cue).enum
      = [(0, ⟨0, 1, "a"⟩), (1, ⟨2, 3, "a"⟩)] := rfl
  have henum1 : ([(⟨0, 1, "a"⟩ : Cue)] : List Cue).enum
      = [(0, ⟨0, 1, "a"⟩)] := rfl
  have hdata : "a".data = ['a'] := rfl
  norm_num [remapPlans, remapStep, remapBest, henum, henum1, hdata,
    List.map, toLower_a, trim_a, charSim_aa, min_def]

/-- Claim C1 (counterexample): in the Timeline-Remap planner the original
cue index `0` is accepted as the match target of both new cue `0` and new
cue `1` in a single run, so matching is not injective there. -/
theorem remap_matching_not_injective :
    (remapPlans [⟨0, 1, "a"⟩] [⟨0, 1, "a"⟩, ⟨2, 3, "a"⟩] 100).map
        RemapSeg.origIdx = [0, 0] ∧
    ¬ ((remapPlans [⟨0, 1, "a"⟩] [⟨0, 1, "a"⟩, ⟨2, 3, "a"⟩] 100).map
        RemapSeg.origIdx).Nodup := by
  rw [remap_eval_inj]
  exact ⟨rfl, by decide⟩

/-! ## Interval validity -/

/-- Every segment emitted by the Gap-Preserving planner satisfies
`0 <= start < end <= videoDuration`. -/
theorem smartSegments_valid (orig new : List Cue) (D : ℚ) :
    ∀ p ∈ (smartPlanState orig new D).segments,
      0 ≤ p.1 ∧ p.1 < p.2 ∧ p.2 ≤ D := by
  unfold smartPlanState
  apply foldl_invariant (fun st : SmartState =>
    ∀ p ∈ st.segments, 0 ≤ p.1 ∧ p.1 < p.2 ∧ p.2 ≤ D)
  · simp
  · intro st p hp hseg
    unfold smartStep
    dsimp only
    rcases hsb : smartBest orig st.used
        (trimChars (p.2.text.data.map Char.toLower))
        (st.used.foldl max 0 - 20)
        (min orig.length (st.used.foldl max 0 + 21)) with ⟨b1, score⟩
    cases b1 with
    | none => exact hseg
    | some r =>
        obtain ⟨idx, oc⟩ := r
        dsimp only
        split_ifs with h1 h2
        · intro q hq
          rw [List.mem_append] at hq
          rcases hq with hq | hq
          · exact hseg q hq
          · rw [List.mem_singleton] at hq
            subst hq
            exact ⟨le_max_left _ _, h2, min_le_left _ _⟩
        · exact hseg
        · exact hseg

/-- Every segment emitted by the Cumulative-Offset planner satisfies
`0 <= start < end <= videoDuration`. -/
theorem cumulativeSegments_valid (orig new : List Cue) (D t : ℚ) :
    ∀ p ∈ (calculate_adjusted_segments orig new D t).1,
      0 ≤ p.1 ∧ p.1 < p.2 ∧ p.2 ≤ D := by
  intro p hp
  unfold calculate_adjusted_segments at hp
  dsimp only at hp
  rw [List.mem_filterMap] at hp
  obtain ⟨en, _, hen⟩ := hp
  unfold clampSegment at hen
  dsimp only at hen
  split_ifs at hen with h
  rw [Option.some.injEq] at hen
  subst hen
  exact ⟨le_max_left _ _, h, min_le_left _ _⟩

/-- Claim C2 (amended): interval validity
`0 <= sourceStart < sourceEnd <= videoDuration` holds for every segment
emitted by the Gap-Preserving planner and by the Cumulative-Offset
planner.  (The Timeline-Remap planner violates it for the interval handed
to extraction — see the counterexample.) -/
theorem interval_validity_smart_cumulative :
    ∀ orig new : List Cue, ∀ D t : ℚ,
      (∀ p ∈ (smartPlanState orig new D).segments,
        0 ≤ p.1 ∧ p.1 < p.2 ∧ p.2 ≤ D) ∧
      (∀ p ∈ (calculate_adjusted_segments orig new D t).1,
        0 ≤ p.1 ∧ p.1 < p.2 ∧ p.2 ≤ D) :=
  fun orig new D t =>
    ⟨smartSegments_valid orig new D, cumulativeSegments_valid orig new D t⟩

/-- Concrete Cumulative-Offset run at the threshold boundary: original cue
`[10,12]`, new cue `[10.5,12.3]`, threshold `0.5`.  `time_diff = -0.5` and
the code's test is the strict `|time_diff| < threshold`, so the pair is
adjusted: segment `[10.5,12.5]` and cumulative offset `-0.5`. -/
theorem cumulative_eval_boundary :
    calculate_adjusted_segments [⟨10, 12, "A"⟩] [⟨21/2, 123/10, "A"⟩] 100 (1/2)
      = ([(21/2, 25/2)], -(1/2)) := by
  have habs : |(1 : ℚ)/2| = 1/2 := abs_of_pos (by norm_num)
  norm_num [calculate_adjusted_segments, cumulativeState, cumulativeStep,
    clampSegment, List.range_succ, habs, min_def, max_def,
    List.filterMap_cons, List.filterMap_nil]

/-- Witness for `interval_validity_smart_cumulative`: the segment
`(10.5, 12.5)` emitted by the concrete Cumulative-Offset run above is a
valid sub-interval of `[0, 100]`. -/
theorem interval_validity_smart_cumulative_witness :
    0 ≤ (21/2 : ℚ) ∧ (21/2 : ℚ) < 25/2 ∧ (25/2 : ℚ) ≤ 100 :=
  (interval_validity_smart_cumulative [⟨10, 12, "A"⟩] [⟨21/2, 123/10, "A"⟩]
      100 (1/2)).2 (21/2, 25/2)
    (by rw [cumulative_eval_boundary]; exact List.mem_singleton_self _)

/-- Concrete Timeline-Remap run in which the matched original cue starts
`1.5` seconds of new-cue duration before the end of the video would allow:
accepted because `min(D, start + dur) > start`, but the stored plan keeps
the raw start. -/
theorem remap_eval_over :
    remapPlans [⟨40, 60, "a"⟩] [⟨0, 3/2, "a"⟩] 41 = [⟨0, 0, 0, 3/2, 40⟩] := by
  have henum1 : ([(⟨0, 3/2, "a"⟩ : Cue)] : List Cue).enum
      = [(0, ⟨0, 3/2, "a"⟩)] := rfl
  have henum2 : ([(⟨40, 60, "a"⟩ : Cue)] : List Cue).enum
      = [(0, ⟨40, 60, "a"⟩)] := rfl
  have hdata : "a".data = ['a'] := rfl
  norm_num [remapPlans, remapStep, remapBest, henum1, henum2, hdata,
    List.map, toLower_a, trim_a, charSim_aa, min_def]

/-- Claim C2 (counterexample): for the Timeline-Remap planner the interval
actually handed to extraction is `[40, 41.5]` while the video duration is
only `41`: `sourceEnd <= videoDuration` fails (the extraction call uses the
unclamped `new_end - new_start` as its duration). -/
theorem remap_interval_exceeds_duration :
    remapPlans [⟨40, 60, "a"⟩] [⟨0, 3/2, "a"⟩] 41 = [⟨0, 0, 0, 3/2, 40⟩] ∧
    (remapExtractionInterval ⟨0, 0, 0, 3/2, 40⟩).2 = 83/2 ∧
    (41 : ℚ) < 83/2 :=
  ⟨remap_eval_over, by norm_num [remapExtractionInterval], by norm_num⟩

/-- Claim C3 (counterexample): on original cue `[10,12]` and new cue
`[10.5,12.3]` with the default threshold `0.5`, the planner does *not*
leave the segment unchanged at `[10,12]` with offset `0`: the boundary
value `|timeDiff| = 0.5` fails the strict `< 0.5` test and triggers the
adjustment branch. -/
theorem cumulative_threshold_boundary_cex :
    calculate_adjusted_segments [⟨10, 12, "A"⟩] [⟨21/2, 123/10, "A"⟩] 100 (1/2)
      = ([(21/2, 25/2)], -(1/2)) ∧
    calculate_adjusted_segments [⟨10, 12, "A"⟩] [⟨21/2, 123/10, "A"⟩] 100 (1/2)
      ≠ ([(10, 12)], 0) := by
  refine ⟨cumulative_eval_boundary, ?_⟩
  rw [cumulative_eval_boundary]
  intro h
  have h2 := congrArg Prod.snd h
  norm_num at h2

/-- Claim C3 (amended): a cue pair whose start-time difference is exactly
the threshold (`timeDiff = -0.5`, threshold `0.5`) is treated as *outside*
the threshold, because the code tests `abs(time_diff) < self.threshold`
strictly: the emitted segment is the shifted interval `[10.5, 12.5]` and
`cumulativeOffset` becomes `-0.5`. -/
theorem cumulative_threshold_boundary_adjusts :
    calculate_adjusted_segments [⟨10, 12, "A"⟩] [⟨21/2, 123/10, "A"⟩] 100 (1/2)
      = ([(21/2, 25/2)], -(1/2)) :=
  cumulative_eval_boundary

/-- Concrete Timeline-Remap run with video duration `31`: the matched
original cue starts at `30`, the new cue lasts `2` seconds. -/
theorem remap_eval_clip :
    remapPlans [⟨30, 50, "b"⟩] [⟨0, 2, "b"⟩] 31 = [⟨0, 0, 0, 2, 30⟩] := by
  have henum1 : ([(⟨0, 2, "b"⟩ : Cue)] : List Cue).enum
      = [(0, ⟨0, 2, "b"⟩)] := rfl
  have henum2 : ([(⟨30, 50, "b"⟩ : Cue)] : List Cue).enum
      = [(0, ⟨30, 50, "b"⟩)] := rfl
  have hdata : "b".data = ['b'] := rfl
  norm_num [remapPlans, remapStep, remapBest, henum1, henum2, hdata,
    List.map, toLower_b, trim_b, charSim_bb, min_def]

/-- Claim C4 (counterexample): the planned source interval is *not*
clamped to the video duration: on video duration `31` the accepted plan's
extraction interval is `(30, 32)` (duration `new_end - new_start = 2` is
passed to the extraction call unclamped), whereas the clamped end would be
`min 31 32 = 31`. -/
theorem remap_segment_not_clamped :
    remapPlans [⟨30, 50, "b"⟩] [⟨0, 2, "b"⟩] 31 = [⟨0, 0, 0, 2, 30⟩] ∧
    remapExtractionInterval ⟨0, 0, 0, 2, 30⟩ = (30, 32) ∧
    min (31 : ℚ) 32 = 31 ∧ (32 : ℚ) ≠ 31 :=
  ⟨remap_eval_clip, by norm_num [remapExtractionInterval, Prod.ext_iff],
    by norm_num [min_def], by norm_num⟩

/-- Claim C4 (amended): every plan emitted by the Timeline-Remap planner
starts its source interval at the matched original cue's start (the
original cue's own end time is never used), its target interval is the new
cue's own timestamps, the interval handed to extraction is
`[origStart, origStart + (newEnd - newStart)]` with *no clamping*, and the
clamped end was only used for the acceptance test
`min(videoDuration, origStart + newDuration) > origStart`. -/
theorem remap_segment_construction :
    ∀ (orig new : List Cue) (D : ℚ), ∀ p ∈ remapPlans orig new D,
      (∃ oc, orig[p.origIdx]? = some oc ∧ p.origStart = oc.start) ∧
      (∃ nc, new[p.newIdx]? = some nc ∧ p.newStart = nc.start ∧
        p.newEnd = nc.stop) ∧
      remapExtractionInterval p
        = (p.origStart, p.origStart + (p.newEnd - p.newStart)) ∧
      p.origStart < min D (p.origStart + (p.newEnd - p.newStart)) := by
  intro orig new D
  unfold remapPlans
  apply foldl_invariant (fun acc : List RemapSeg =>
    ∀ p ∈ acc,
      (∃ oc, orig[p.origIdx]? = some oc ∧ p.origStart = oc.start) ∧
      (∃ nc, new[p.newIdx]? = some nc ∧ p.newStart = nc.start ∧
        p.newEnd = nc.stop) ∧
      remapExtractionInterval p
        = (p.origStart, p.origStart + (p.newEnd - p.newStart)) ∧
      p.origStart < min D (p.origStart + (p.newEnd - p.newStart)))
  · simp
  · intro acc q hq hacc
    unfold remapStep
    dsimp only
    rcases hrb : remapBest orig (trimChars (q.2.text.data.map Char.toLower))
        with ⟨b1, score⟩
    cases b1 with
    | none => exact hacc
    | some r =>
        obtain ⟨idx, oc⟩ := r
        have horig := remapBest_spec orig
          (trimChars (q.2.text.data.map Char.toLower)) idx oc (by rw [hrb])
        dsimp only
        split_ifs with h1 h2
        · intro p hp
          rw [List.mem_append] at hp
          rcases hp with hp | hp
          · exact hacc p hp
          · rw [List.mem_singleton] at hp
            subst hp
            exact ⟨⟨oc, horig, rfl⟩,
              ⟨q.2, List.mem_enum_iff_getElem?.mp hq, rfl, rfl⟩, rfl, h2⟩
        · exact hacc
        · exact hacc

/-- Witness for `remap_segment_construction` at the concrete plan produced
by `remap_eval_over`. -/
theorem remap_segment_construction_witness :
    (∃ oc, ([(⟨40, 60, "a"⟩ : Cue)] : List Cue)[(0 : ℕ)]? = some oc ∧
      (40 : ℚ) = oc.start) ∧
    (∃ nc, ([(⟨0, 3/2, "a"⟩ : Cue)] : List Cue)[(0 : ℕ)]? = some nc ∧
      (0 : ℚ) = nc.start ∧ (3/2 : ℚ) = nc.stop) ∧
    remapExtractionInterval ⟨0, 0, 0, 3/2, 40⟩ = (40, 40 + (3/2 - 0)) ∧
    (40 : ℚ) < min 41 (40 + (3/2 - 0)) :=
  remap_segment_construction [⟨40, 60, "a"⟩] [⟨0, 3/2, "a"⟩] 41
    ⟨0, 0, 0, 3/2, 40⟩
    (by rw [remap_eval_over]; exact List.mem_singleton_self _)

/-! ## Text similarity versus acceptance -/

theorem compactTextSim_ab : compactTextSim ['a'] ['b'] = 0 := by decide

/-- Concrete run of the Compact planner's matcher: the only candidate has
zero word overlap with the target but is perfectly placed in time, and is
accepted (`0.7 * timeScore = 0.7 > 0.3`). -/
theorem compact_eval_zero_text :
    find_matching_original_subtitle [⟨5, 6, "b"⟩] ⟨5, 6, "a"⟩ [] 0
      = some (0, ⟨5, 6, "b"⟩) := by
  have henum : ([(⟨5, 6, "b"⟩ : Cue)] : List Cue).enum
      = [(0, ⟨5, 6, "b"⟩)] := rfl
  have hda : "a".data = ['a'] := rfl
  have hdb : "b".data = ['b'] := rfl
  norm_num [find_matching_original_subtitle, henum, hda, hdb, List.map,
    toLower_a, toLower_b, trim_a, trim_b, compactTextSim_ab, abs_of_nonneg,
    max_def]

/-- Claim C5 (counterexample): in
`CompactVideoClipper.find_matching_original_subtitle` a candidate whose
text similarity with the target is zero *is* accepted as the match when
its temporal position matches well: the time-score component alone
(`0.7 * 1.0`) carries it over the `0.3` acceptance threshold. -/
theorem compact_zero_text_accepted :
    compactTextSim (trimChars ("a".data.map Char.toLower))
        (trimChars ("b".data.map Char.toLower)) = 0 ∧
    find_matching_original_subtitle [⟨5, 6, "b"⟩] ⟨5, 6, "a"⟩ [] 0
      = some (0, ⟨5, 6, "b"⟩) :=
  ⟨by rw [show "a".data = ['a'] from rfl, show "b".data = ['b'] from rfl]
      simp only [List.map, toLower_a, toLower_b, trim_a, trim_b]
      exact compactTextSim_ab,
   compact_eval_zero_text⟩

/-- Claim C5 (amended): in the Timeline-Align matcher
(`find_matching_segment`) a zero-text-similarity candidate is never
accepted: any accepted match has text similarity at least `0.3` (hence
strictly positive) with the target cue, because low-text candidates are
skipped before the duration blend is even computed.  The Compact planner's
matcher does not have this property (see the counterexample). -/
theorem aligner_zero_text_never_accepted :
    ∀ (orig : List Cue) (newSub : Cue) (used : List ℕ) (lastIdx : ℕ)
      (idx : ℕ) (s e : ℚ),
      find_matching_segment orig newSub used lastIdx = some (idx, s, e) →
      ∃ oc, orig[idx]? = some oc ∧
        3/10 ≤ charSim (trimChars (newSub.text.data.map Char.toLower))
          (trimChars (oc.text.data.map Char.toLower)) ∧
        0 < charSim (trimChars (newSub.text.data.map Char.toLower))
          (trimChars (oc.text.data.map Char.toLower)) := by
  intro orig newSub used lastIdx idx s e h
  obtain ⟨-, oc, hoc, -, -, hsim⟩ :=
    find_matching_segment_spec orig newSub used lastIdx idx s e h
  exact ⟨oc, hoc, hsim, lt_of_lt_of_le (by norm_num) hsim⟩

/-- Witness for `aligner_zero_text_never_accepted` at a concrete accepted
match. -/
theorem aligner_zero_text_never_accepted_witness :
    ∃ oc, ([(⟨0, 1, "a"⟩ : Cue)] : List Cue)[(0 : ℕ)]? = some oc ∧
      3/10 ≤ charSim (trimChars ((⟨0, 1, "a"⟩ : Cue).text.data.map
          Char.toLower))
        (trimChars (oc.text.data.map Char.toLower)) ∧
      0 < charSim (trimChars ((⟨0, 1, "a"⟩ : Cue).text.data.map
          Char.toLower))
        (trimChars (oc.text.data.map Char.toLower)) := by
  apply aligner_zero_text_never_accepted [⟨0, 1, "a"⟩] ⟨0, 1, "a"⟩ [] 0 0 0 1
  have hda : "a".data = ['a'] := rfl
  norm_num [find_matching_segment, alignBest, List.range', hda, List.map,
    toLower_a, trim_a, charSim_aa, max_def, min_def]

/-! ## Behaviour on zero-length tracks -/

/-- The Gap-Preserving candidate scan over an empty window finds nothing. -/
theorem smartBest_hi_zero (orig : List Cue) (used : List ℕ)
    (newText : List Char) (lo : ℕ) :
    smartBest orig used newText lo 0 = (none, 0) := by
  unfold smartBest
  rw [Nat.zero_sub]
  rfl

/-- With an empty original track the Gap-Preserving step never changes the
state: the search window `[lo, min(0, ...))` is empty, so every new cue is
logged as unmatched. -/
theorem smartStep_nil_orig (D : ℚ) (st : SmartState) (p : ℕ × Cue) :
    smartStep [] D st p = st := by
  unfold smartStep
  dsimp only
  have hmin : min ([] : List Cue).length (st.used.foldl max 0 + 21) = 0 := by
    simp
  rw [hmin, smartBest_hi_zero]

/-- With an empty original track the Gap-Preserving planning loop ends in
its initial state. -/
theorem smartPlanState_nil_orig (new : List Cue) (D : ℚ) :
    smartPlanState [] new D = ⟨[], [], []⟩ := by
  unfold smartPlanState
  apply foldl_invariant (fun st : SmartState => st = ⟨[], [], []⟩)
  · rfl
  · intro st p _ hst
    rw [smartStep_nil_orig, hst]

/-- Claim C8 (counterexample): with a zero-length *new* track the run does
not fail pre-flight with an `InvalidInput` result: the whole matching loop
runs and the statistics step then raises an unhandled `ZeroDivisionError`
(`total_matched / len(self.new_subs)` with `len(self.new_subs) == 0`). -/
theorem no_preflight_invalid_input :
    extract_segments_with_gaps [⟨0, 1, "a"⟩] [] 100
      = Except.error "ZeroDivisionError" ∧
    "ZeroDivisionError" ≠ "InvalidInput" :=
  ⟨rfl, by decide⟩

/-- Claim C8 (amended): there is no pre-flight validation of track
lengths.  A zero-length new track makes the planner raise an unhandled
division-by-zero error when computing the match-rate statistic, *after*
the matching loop; a zero-length original track proceeds through planning
normally and yields an empty segment list (the caller only then reports a
"no segments" error). -/
theorem empty_track_behaviour :
    (∀ (orig : List Cue) (D : ℚ),
      extract_segments_with_gaps orig [] D
        = Except.error "ZeroDivisionError") ∧
    (∀ (new : List Cue) (D : ℚ), new ≠ [] →
      extract_segments_with_gaps [] new D = Except.ok ([], 0)) := by
  constructor
  · intro orig D; rfl
  · intro new D hne
    unfold extract_segments_with_gaps
    rw [smartPlanState_nil_orig]
    rw [if_neg (by simpa using List.length_pos.mpr hne |>.ne')]
    simp

/-- Witness for `empty_track_behaviour`: an empty original track against a
one-cue new track plans zero segments but does not fail. -/
theorem empty_track_behaviour_witness :
    extract_segments_with_gaps [] [⟨0, 1, "a"⟩] 100 = Except.ok ([], 0) :=
  empty_track_behaviour.2 [⟨0, 1, "a"⟩] 100 (by simp)

/-! ## Positional pairing of the Cumulative-Offset planner -/

/-- The index-based loop `for i in range(min_count))` of
`calculate_adjusted_segments` is the fold of `cumulativeStep` over the
zip of the two tracks. -/
theorem cumulativeState_eq_zip (orig new : List Cue) (t : ℚ) :
    cumulativeState orig new t
      = (orig.zip new).enum.foldl
          (fun st p => cumulativeStep t st (p.1, p.2.1, p.2.2)) ([], 0) := by
  unfold cumulativeState
  have hlen : min orig.length new.length = (orig.zip new).length := by
    rw [List.length_zip]
  rw [hlen, ← List.enum_map_fst (orig.zip new), List.foldl_map]
  apply List.foldl_ext
  intro acc p hp
  have hz : (orig.zip new)[p.1]? = some p.2 := List.mem_enum_iff_getElem?.mp hp
  obtain ⟨h1, h2⟩ := List.getElem?_zip_eq_some.mp hz
  rw [h1, h2]

/-- The adjusted intervals produced by the Cumulative-Offset fold are
exactly `adjustedTimes` of each processed pair, in order; the running
offset influences only the log fields, never the intervals. -/
theorem cumulativeFold_times (t : ℚ) :
    ∀ (l : List (ℕ × Cue × Cue)) (init : List AdjEntry × ℚ),
      ((l.foldl (cumulativeStep t) init).1).map (fun en => (en.start, en.stop))
        = (init.1.map fun en => (en.start, en.stop))
          ++ l.map (fun p => adjustedTimes t p.2.1 p.2.2) := by
  intro l
  induction l with
  | nil => simp
  | cons q rest ih =>
      intro init
      rw [List.foldl_cons, ih]
      unfold cumulativeStep adjustedTimes
      dsimp only
      split_ifs with h
      · simp [h]
      · simp [h]

/-- The Cumulative-Offset planner's segments are the per-pair segments of
the zipped tracks. -/
theorem cumulative_zip_form (orig new : List Cue) (D t : ℚ) :
    (calculate_adjusted_segments orig new D t).1
      = (orig.zip new).filterMap (cumulativePairSegment D t) := by
  unfold calculate_adjusted_segments
  dsimp only
  rw [cumulativeState_eq_zip]
  rw [show (fun en : AdjEntry => clampSegment D (en.start, en.stop))
      = (fun se => clampSegment D se) ∘ (fun en => (en.start, en.stop))
      from rfl]
  rw [← List.filterMap_map]
  rw [show ((orig.zip new).enum.foldl
        (fun st p => cumulativeStep t st (p.1, p.2.1, p.2.2)) ([], 0))
      = (((orig.zip new).enum.map
          (fun p : ℕ × Cue × Cue => (p.1, p.2.1, p.2.2))).foldl
          (cumulativeStep t) ([], 0))
      from (List.foldl_map _ _ _ _).symm]
  rw [cumulativeFold_times]
  rw [List.map_nil, List.nil_append, List.map_map]
  rw [show ((fun p : ℕ × Cue × Cue => adjustedTimes t p.2.1 p.2.2)
        ∘ (fun p : ℕ × Cue × Cue => (p.1, p.2.1, p.2.2)))
      = ((fun pr : Cue × Cue => adjustedTimes t pr.1 pr.2) ∘ Prod.snd)
      from rfl]
  rw [← List.map_map, List.enum_map_snd, List.filterMap_map]
  rfl

/-- Claim C10: the Cumulative-Offset planner pairs cues positionally: its
segments are obtained by zipping the two tracks (so the `i`-th original
cue is paired with the `i`-th new cue, new cues beyond the original
track's length are silently dropped by the zip, and exactly one candidate
segment is considered per index pair, in index order), and cue text never
influences the result: changing every text on both tracks leaves the
segment list unchanged. -/
theorem cumulative_positional_pairing :
    ∀ (orig new : List Cue) (D t : ℚ),
      (calculate_adjusted_segments orig new D t).1
        = (orig.zip new).filterMap (cumulativePairSegment D t) ∧
      ∀ f g : String → String,
        (calculate_adjusted_segments (orig.map (retext f))
            (new.map (retext g)) D t).1
          = (calculate_adjusted_segments orig new D t).1 := by
  intro orig new D t
  refine ⟨cumulative_zip_form orig new D t, ?_⟩
  intro f g
  rw [cumulative_zip_form, cumulative_zip_form, List.zip_map,
    List.filterMap_map]
  rfl
